import Mathlib

/-!
Verification of the Vega-scraper link-resolution pipeline (src/scraper.py).

The Python source is shallowly embedded: pure string functions become Lean
functions over `List Char`, the regular expressions used by the source are
translated into explicit character-level matchers with Python `re` semantics
(`.` does not match a newline, `\b` is a word boundary, `re.I` compares
lowercased characters, `re.sub` scans left to right and continues after each
match), and the effectful `process_movie` driver becomes a pure function of
an environment of rendering oracles that yields the trace of events
(load attempts, emitted result records, the ledger mark).
-/

namespace Scraper

/-! ### Character classes (ASCII model of Python `str`/`re` classes) -/

/-- Python whitespace as used by `str.strip` and `\s` (ASCII fragment). -/
def isWs (c : Char) : Bool :=
  c = ' ' || c = '\t' || c = '\n' || c = '\r' || c = '\x0b' || c = '\x0c'

/-- Python `\w`: letters, digits and underscore (ASCII fragment). -/
def isWordChar (c : Char) : Bool :=
  c.isAlphanum || c = '_'

/-- Lowercase a character, as Python `str.lower` does on ASCII. -/
def lc (c : Char) : Char := c.toLower

/-- Lowercase every character of a list. -/
def lowerList (l : List Char) : List Char := l.map lc

/-- Python `str.strip()`: remove leading and trailing whitespace. -/
def stripWs (l : List Char) : List Char :=
  ((l.dropWhile isWs).reverse.dropWhile isWs).reverse

/-- Case-insensitive prefix test: the (already lowercase) pattern `p`
matches the beginning of `s` ignoring the case of `s`. -/
def startsWithCI : List Char → List Char → Bool
  | [], _ => true
  | _ :: _, [] => false
  | a :: as, b :: bs => (lc a = lc b) && startsWithCI as bs

/-- Python `needle in hay` substring test on character lists. -/
def containsSub (n : List Char) : List Char → Bool
  | [] => n.isEmpty
  | c :: t => n.isPrefixOf (c :: t) || containsSub n t

/-- String wrappers. -/
def lowerStr (s : String) : String := String.mk (lowerList s.data)

def stripStr (s : String) : String := String.mk (stripWs s.data)

/-- Python `sub in s` on strings. -/
def containsStr (n s : String) : Bool := containsSub n.data s.data

/-- Python `s.startswith(p)` on strings. -/
def startsWithStr (p s : String) : Bool := p.data.isPrefixOf s.data

/-! ### Word boundaries (`\b`) -/

/-- A `\b` holds before the current position when the previous character
(`none` at the start of the string) is absent or not a word character,
given that the pattern starts with a word character. -/
def boundaryBefore : Option Char → Bool
  | none => true
  | some c => !isWordChar c

/-- A `\b` holds after a match ending in a word character when the rest of
the string is empty or starts with a non-word character. -/
def boundaryAfter : List Char → Bool
  | [] => true
  | c :: _ => !isWordChar c

/-! ### Configuration tables from the source -/

/-- Host priority list (prefer earlier), `HOST_PRIORITY` in the source. -/
def HOST_PRIORITY : List String :=
  ["gdtot", "gdflix", "hubcloud", "v-cloud", "drive.google", "gdrive", "gdlink"]

/-- Accepted anchor/button keywords, `ACCEPT_BUTTON_KEYWORDS` in the source. -/
def ACCEPT_BUTTON_KEYWORDS : List String :=
  ["batch", "zip", "download", "v-cloud", "vcloud", "download now", "g-direct"]

/-- Shortener host substrings, `SHORTENER_HOSTS` in the source. -/
def SHORTENER_HOSTS : List String :=
  ["vdrive.lol", "m.vdrive.lol", "vdshort", "short", "ouo.io", "shrtco",
   "shrinkme", "rebrand", "boost.ink", "adf.ly", "ouo", "cutt.ly"]

/-! ### `is_episode` — the `EPISODE_PATTERNS` matchers

The source searches each of
`[r"\bep\b", r"\bep\.", r"\bepisode\b", r"\bs\d{1,2}e\d{1,2}\b",
  r"\bS\d{1,2}E\d{1,2}\b"]` with `re.I`. -/

/-- Matcher for `\bW\b` at the current position, for a lowercase literal
word `w` beginning and ending in word characters (`re.I`). -/
def wordAt (w : List Char) (prev : Option Char) (s : List Char) : Bool :=
  boundaryBefore prev && startsWithCI w s && boundaryAfter (s.drop w.length)

/-- Matcher for `\bep\b` at the current position. -/
def matchEpAt (prev : Option Char) (s : List Char) : Bool :=
  wordAt ['e', 'p'] prev s

/-- Matcher for `\bep\.` at the current position (no trailing boundary:
the literal dot must follow). -/
def matchEpDotAt (prev : Option Char) (s : List Char) : Bool :=
  boundaryBefore prev && startsWithCI ['e', 'p'] s &&
    (match s.drop 2 with
     | c :: _ => c = '.'
     | [] => false)

/-- Matcher for `\bepisode\b` at the current position. -/
def matchEpisodeAt (prev : Option Char) (s : List Char) : Bool :=
  wordAt ['e', 'p', 'i', 's', 'o', 'd', 'e'] prev s

/-- After `e`, match `\d{1,2}\b` (greedy: two digits, else one). -/
def sxeEnd : List Char → Bool
  | [] => false
  | [d] => d.isDigit
  | d1 :: d2 :: rest =>
      (d1.isDigit && d2.isDigit && boundaryAfter rest) ||
      (d1.isDigit && boundaryAfter (d2 :: rest))

/-- After `s`, match `\d{1,2}e\d{1,2}\b` (greedy with backtracking). -/
def sxeMid : List Char → Bool
  | [] => false
  | [_] => false
  | d1 :: d2 :: rest =>
      (d1.isDigit && d2.isDigit &&
        (match rest with
         | e :: rest2 => lc e = 'e' && sxeEnd rest2
         | [] => false)) ||
      (d1.isDigit && lc d2 = 'e' && sxeEnd rest)

/-- Matcher for `\bs\d{1,2}e\d{1,2}\b` (case-insensitive) at the current
position. -/
def matchSxEAt (prev : Option Char) (s : List Char) : Bool :=
  boundaryBefore prev &&
    (match s with
     | c :: rest => lc c = 's' && sxeMid rest
     | [] => false)

/-- Scan as `re.search`: try the position matcher at every position, left to right,
remembering the previous character for `\b` tests. -/
def searchPat (pm : Option Char → List Char → Bool) :
    Option Char → List Char → Bool
  | prev, [] => pm prev []
  | prev, c :: rest => pm prev (c :: rest) || searchPat pm (some c) rest

/-- The `EPISODE_PATTERNS` of the source, as position matchers; the fourth and
fifth entry are the same matcher because `re.I` makes the two `SxxExx`
patterns of the source identical. -/
def EPISODE_PATTERNS : List (Option Char → List Char → Bool) :=
  [matchEpAt, matchEpDotAt, matchEpisodeAt, matchSxEAt, matchSxEAt]

/-- Model of `is_episode` from the source: `False` on falsy text, else whether any
episode pattern matches somewhere in the text. -/
def is_episode (text : String) : Bool :=
  if text = "" then false
  else EPISODE_PATTERNS.any (fun pm => searchPat pm none text.data)

/-! ### `extract_quality` -/

/-- The quality alternation `(2160p|1080p|720p|480p|360p)` tried at the
current position, in the source's order; the match is returned already
lowercased, as `m.group(1).lower()` does. -/
def tagAt (s : List Char) : Option String :=
  if startsWithCI ['2', '1', '6', '0', 'p'] s then some "2160p"
  else if startsWithCI ['1', '0', '8', '0', 'p'] s then some "1080p"
  else if startsWithCI ['7', '2', '0', 'p'] s then some "720p"
  else if startsWithCI ['4', '8', '0', 'p'] s then some "480p"
  else if startsWithCI ['3', '6', '0', 'p'] s then some "360p"
  else none

/-- Leftmost quality-tag match in the text (`re.search` scan). -/
def searchQ : List Char → Option String
  | [] => none
  | c :: rest =>
      match tagAt (c :: rest) with
      | some t => some t
      | none => searchQ rest

/-- Model of `extract_quality` from the source: `"Unknown"` on falsy text or when no
tag occurs, else the lowercased leftmost tag. -/
def extract_quality (text : String) : String :=
  if text = "" then "Unknown"
  else
    match searchQ text.data with
    | some t => t
    | none => "Unknown"

/-! ### `clean_title` — the title normalizer

Each `re.sub` of the source is translated into an explicit left-to-right
scan. The scans that can skip more than one character per step take an
explicit fuel argument (always called with the length of the input), which
keeps them structurally recursive and kernel-reducible. -/

/-- Model of `re.sub(r"\.(mkv|mp4|avi|mov|zip)$", "", s, flags=re.I)`: drop a final
file extension; `$` also matches just before a single trailing newline. -/
def extList : List (List Char) :=
  [['.', 'm', 'k', 'v'], ['.', 'm', 'p', '4'], ['.', 'a', 'v', 'i'],
   ['.', 'm', 'o', 'v'], ['.', 'z', 'i', 'p']]

def endsWithExt (s : List Char) : Bool :=
  extList.any (fun e => decide (lowerList (s.drop (s.length - 4)) = e) && decide (4 ≤ s.length))

def subExt (s : List Char) : List Char :=
  if endsWithExt s then s.take (s.length - 4)
  else if (match s.getLast? with
           | some c => c = '\n'
           | none => false) && endsWithExt s.dropLast then
    s.dropLast.take (s.dropLast.length - 4) ++ ['\n']
  else s

/-- Index of the closing character `t` in the rest of the string, provided
no newline intervenes (`.` of a non-greedy `.*?` cannot cross `\n`). -/
def findCloseIdx (t : Char) : List Char → Option Nat
  | [] => none
  | c :: r =>
      if c = t then some 0
      else if c = '\n' then none
      else (findCloseIdx t r).map (· + 1)

/-- One replacement step for `\[.*?\]|\{.*?\}`: at an opening bracket with a
reachable close, the match length (including both brackets) and the empty
replacement. -/
def bracketM (s : List Char) : Option (Nat × List Char) :=
  match s with
  | [] => none
  | c :: rest =>
      if c = '[' then (findCloseIdx ']' rest).map (fun j => (j + 2, []))
      else if c = '\x7b' then (findCloseIdx '\x7d' rest).map (fun j => (j + 2, []))
      else none

/-- Check of `^(19|20)\d{2}$` on the stripped inner text of a parenthesized group. -/
def yearCheck (t : List Char) : Bool :=
  match t with
  | [a, b, c, d] =>
      ((a = '1' && b = '9') || (a = '2' && b = '0')) && c.isDigit && d.isDigit
  | _ => false

/-- The `_keep_year` replacement of the source: keep `(inner)` verbatim when
the stripped inner text is a 19xx/20xx year, else delete the group. -/
def keepYear (inner : List Char) : List Char :=
  if yearCheck (stripWs inner) then '(' :: (inner ++ [')']) else []

/-- One replacement step for `\((.*?)\)` with `_keep_year`. -/
def parenM (s : List Char) : Option (Nat × List Char) :=
  match s with
  | [] => none
  | c :: rest =>
      if c = '(' then
        (findCloseIdx ')' rest).map (fun j => (j + 2, keepYear (rest.take j)))
      else none

/-- Generic `re.sub` scan for matchers that do not look at `\b`: find each
leftmost match, substitute its replacement, continue after the match.
`fuel` bounds the recursion and is always instantiated with the length of
the scanned list. -/
def subRF (m : List Char → Option (Nat × List Char)) : Nat → List Char → List Char
  | 0, s => s
  | _ + 1, [] => []
  | f + 1, c :: rest =>
      match m (c :: rest) with
      | some (k + 1, rep) => rep ++ subRF m f ((c :: rest).drop (k + 1))
      | _ => c :: subRF m f rest

/-- Replacement `[._\-]+` → `" "`: replace each maximal run of separators by a single
space; the `Bool` argument records whether the previous character was part
of a separator run. -/
def isSep (c : Char) : Bool := c = '.' || c = '_' || c = '-'

def sepCollapse : Bool → List Char → List Char
  | _, [] => []
  | prevSep, c :: rest =>
      if isSep c then
        if prevSep then sepCollapse true rest else ' ' :: sepCollapse true rest
      else c :: sepCollapse false rest

/-- Replacement `\s+` → `" "`: same shape for whitespace runs. -/
def wsCollapse : Bool → List Char → List Char
  | _, [] => []
  | prevWs, c :: rest =>
      if isWs c then
        if prevWs then wsCollapse true rest else ' ' :: wsCollapse true rest
      else c :: wsCollapse false rest

/-- Generic `re.sub(pattern, "", s)` scan for position matchers that use the
previous character for `\b`; a matcher returns the match length. Boundaries
for later matches are computed on the original characters, so the previous
character after a match is the last matched character. -/
def subM (m : Option Char → List Char → Option Nat) :
    Nat → Option Char → List Char → List Char
  | 0, _, s => s
  | _ + 1, _, [] => []
  | f + 1, prev, c :: rest =>
      match m prev (c :: rest) with
      | some (k + 1) =>
          subM m f (((c :: rest).take (k + 1)).getLast?) ((c :: rest).drop (k + 1))
      | _ => c :: subM m f (some c) rest

/-- Word matcher as a match-length function for `subM`. -/
def wordM (w : List Char) (prev : Option Char) (s : List Char) : Option Nat :=
  if wordAt w prev s then some w.length else none

/-- Matcher for `\bweb[- ]?dl\b` (`re.I`): greedy optional separator with
backtracking, returning the matched length. -/
def webdlM (prev : Option Char) (s : List Char) : Option Nat :=
  if boundaryBefore prev && startsWithCI ['w', 'e', 'b'] s then
    match s.drop 3 with
    | c :: rest2 =>
        if (c = '-' || c = ' ') && startsWithCI ['d', 'l'] rest2 &&
            boundaryAfter (rest2.drop 2) then some 6
        else if startsWithCI ['d', 'l'] (c :: rest2) &&
            boundaryAfter ((c :: rest2).drop 2) then some 5
        else none
    | [] => none
  else none

/-- The `junk` patterns of the source, in order. -/
def junkMatchers : List (Option Char → List Char → Option Nat) :=
  [wordM "download".data, webdlM, wordM "bluray".data, wordM "brrip".data,
   wordM "hdrip".data, wordM "dual audio".data, wordM "hindi".data,
   wordM "english".data, wordM "esub".data, wordM "subs".data,
   wordM "x264".data, wordM "x265".data, wordM "10bit".data,
   wordM "web".data, wordM "vegamovies".data]

/-- Python `str.title()` (ASCII): a letter is uppercased unless the previous
character is a letter, in which case it is lowercased. -/
def pyTitle : Bool → List Char → List Char
  | _, [] => []
  | prevCased, c :: rest =>
      if c.isAlpha then
        (if prevCased then c.toLower else c.toUpper) :: pyTitle true rest
      else c :: pyTitle false rest

/-- Model of `clean_title` from the source. -/
def clean_title (raw : String) : String :=
  if raw = "" then "Unknown"
  else
    let s0 := stripWs raw.data
    let s1 := subExt s0
    let s2 := subRF bracketM s1.length s1
    let s3 := subRF parenM s2.length s2
    let s4 := sepCollapse false s3
    let s5 := junkMatchers.foldl (fun acc m => subM m acc.length none acc) s4
    let s6 := stripWs (wsCollapse false s5)
    String.mk (pyTitle false s6)

/-! ### `prefer_links` — host-priority ranking

`sorted(links, key=score)` is Python's stable sort; any stable sort agrees
with it, so it is modelled by a stable insertion sort (each element is
inserted after all already-placed elements of equal or smaller score). -/

/-- The `score` closure of `prefer_links`: index of the first
`HOST_PRIORITY` entry occurring in the lowercased URL, else the length of
`HOST_PRIORITY`. -/
def scoreGo (low : List Char) : List String → Nat → Nat
  | [], n => n
  | h :: rest, n => if containsSub h.data low then n else scoreGo low rest (n + 1)

def score (h : String) : Nat :=
  scoreGo (lowerList h.data) HOST_PRIORITY 0

/-- Stable insertion of `x` after all elements of score not exceeding
`score x`. -/
def insertScored (x : String) : List String → List String
  | [] => [x]
  | y :: ys => if score y ≤ score x then y :: insertScored x ys else x :: y :: ys

/-- Model of `prefer_links` from the source: stable ascending sort by `score`. -/
def prefer_links (links : List String) : List String :=
  links.foldl (fun acc x => insertScored x acc) []

/-! ### `safe_load_json` — the progress-ledger loader

The file system and the JSON parser are the effectful inputs: whether the
path exists, the outcome of reading it, and the outcome of parsing the
content. Each `except` branch of the source returns the empty map. -/

/-- JSON values, enough to model what `json.load` can return. -/
inductive Json where
  | null
  | bool (b : Bool)
  | num (n : Int)
  | str (s : String)
  | arr (xs : List Json)
  | obj (kvs : List (String × Json))

/-- The empty JSON object `{}` the source starts fresh with. -/
def emptyObj : Json := .obj []

/-- Model of `safe_load_json` from the source: missing path, read failure or parse
failure all yield the empty map; only a successful read and parse yields
the parsed value. -/
def safe_load_json (fileExists : Bool) (readFile : Except String String)
    (parseJson : String → Except String Json) : Json :=
  if fileExists then
    match readFile with
    | .error _ => emptyObj
    | .ok content =>
        match parseJson content with
        | .error _ => emptyObj
        | .ok v => v
  else emptyObj

/-! ### `parse_pages_input` — page-range configuration

`int()` of Python is modelled including its own whitespace stripping, an
optional sign and underscore digit grouping. -/

/-- Value of a digit character. -/
def digitVal (c : Char) : Nat := c.toNat - 48

/-- Digits with single underscores allowed between digits, after the first
digit has been consumed. -/
def natGo : Nat → List Char → Option Nat
  | acc, [] => some acc
  | acc, c :: rest =>
      if c.isDigit then natGo (acc * 10 + digitVal c) rest
      else if c = '_' then
        match rest with
        | d :: rest2 => if d.isDigit then natGo (acc * 10 + digitVal d) rest2 else none
        | [] => none
      else none

/-- Grammar `digit (('_')? digit)*`, the digit part of a Python integer literal. -/
def natPart : List Char → Option Nat
  | [] => none
  | c :: rest => if c.isDigit then natGo (digitVal c) rest else none

/-- Python `int(str)`: strip whitespace, optional sign, digit part. -/
def pyInt (s : List Char) : Option Int :=
  match stripWs s with
  | [] => none
  | c :: rest =>
      if c = '+' then (natPart rest).map Int.ofNat
      else if c = '-' then (natPart rest).map (fun n => -(n : Int))
      else (natPart (c :: rest)).map Int.ofNat

/-- Python `list(range(a, b))`. -/
def pyRange (a b : Int) : List Int :=
  (List.range (b - a).toNat).map (fun k => a + Int.ofNat k)

/-- Model of `s.split("-", 1)`: the parts before and after the first dash. -/
def splitDash : List Char → List Char × List Char
  | [] => ([], [])
  | '-' :: r => ([], r)
  | c :: r =>
      let p := splitDash r
      (c :: p.1, p.2)

/-- Model of `parse_pages_input` from the source: `(s or "1").strip()`, then either
split at the first dash and convert both sides with `int`, or convert the
whole with `int`; a failed conversion is the raised `ValueError`. -/
def parse_pages_input (s : String) : Except Unit (List Int) :=
  let t := stripWs (if s = "" then "1".data else s.data)
  if t.contains '-' then
    let p := splitDash t
    match pyInt p.1, pyInt p.2 with
    | some a, some b => .ok (pyRange a (b + 1))
    | _, _ => .error ()
  else
    match pyInt t with
    | some a => .ok [a]
    | none => .error ()

/-! ### `process_movie` — the per-candidate resolver

The Playwright renderer and `requests` are the external collaborators; the
model takes them as oracles: the outcome of each render attempt of the
detail page, of each intermediary (VGMLINK) page, the destination a
shortener resolves to, and the title found on a final page (the outcome of
the bounded `FINAL_LOAD_RETRIES` block). The function returns the trace of
observable events: load attempts, emitted result records (one
`write_result` line each) and the single ledger mark
(`scraped[movie_url] = True; save_scraped()`). -/

/-- One anchor of a rendered page: `href`, visible text, and whether it
wraps a `<button>` element. -/
structure Anchor where
  href : String
  text : String
  hasButton : Bool
deriving DecidableEq, Repr

/-- A rendered page: `soup.title` and its anchors with an `href`. -/
structure PageHtml where
  pageTitle : Option String
  anchors : List Anchor
deriving DecidableEq, Repr

/-- Rendering oracles for one `process_movie` call. -/
structure Env where
  movieGoto : Nat → Option PageHtml
  movieFetch : Option PageHtml
  vgmGoto : String → Nat → Option PageHtml
  vgmFetch : String → Option PageHtml
  shortenerResolve : String → String
  finalTitle : String → Option String

/-- Observable events of one `process_movie` call. -/
inductive Event where
  | attempt
  | mark
  | emit (title quality url : String)
deriving DecidableEq, Repr

/-- Retry constants from the source. -/
def MOVIE_LOAD_RETRIES : Nat := 3

def VGMLINK_LOAD_RETRIES : Nat := 3

/-- A bounded retry loop (`for attempt in range(1, n+1)`): one `attempt`
event per try, stopping at the first success. -/
def runRetries (f : Nat → Option PageHtml) (start : Nat) :
    Nat → List Event × Option PageHtml
  | 0 => ([], none)
  | k + 1 =>
      match f start with
      | some h => ([.attempt], some h)
      | none =>
          let r := runRetries f (start + 1) k
          (.attempt :: r.1, r.2)

/-- Model of `resolve_shortener_and_get_final`: a URL whose lowercase form contains a
shortener host is opened and its final location returned (the original URL
on failure, folded into the oracle); any other URL is returned unchanged. -/
def resolve_shortener_and_get_final (env : Env) (url : String) : String :=
  if SHORTENER_HOSTS.any (fun s => containsStr s (lowerStr url)) then
    env.shortenerResolve url
  else url

/-- The candidate filter of `process_movie` (detail-page anchors): http
links that are not episode-like and whose text carries an accepted keyword
(the `vgml` branch additionally checks the href, but also requires a
keyword in the text). -/
def movieCandidates (anchors : List Anchor) : List String :=
  anchors.filterMap (fun a =>
    let href := stripStr a.href
    let text := lowerStr a.text
    if !startsWithStr "http" href then none
    else if is_episode text || is_episode href then none
    else if (containsStr "vgml" (lowerStr href) || containsStr "vgmlink" (lowerStr href))
        && ACCEPT_BUTTON_KEYWORDS.any (fun k => containsStr k text) then some href
    else if ACCEPT_BUTTON_KEYWORDS.any (fun k => containsStr k text) then some href
    else none)

/-- Order-preserving deduplication (`dedup`/`seen` loops of the source). -/
def dedupe (l : List String) : List String :=
  l.foldl (fun acc x => if acc.contains x then acc else acc ++ [x]) []

/-- Model of `extract_final_candidates_from_html`: http anchors that are not
episode-like and point at a priority host, carry an accepted keyword, or
wrap a button; deduplicated preserving order. -/
def extract_final_candidates_from_html (anchors : List Anchor) : List String :=
  dedupe (anchors.filterMap (fun a =>
    let href := stripStr a.href
    if !startsWithStr "http" href then none
    else
      let text := lowerStr a.text
      if is_episode text || is_episode href then none
      else
        let hrefLow := lowerStr href
        if HOST_PRIORITY.any (fun h => containsStr h hrefLow)
            || ACCEPT_BUTTON_KEYWORDS.any (fun k => containsStr k text) then some href
        else if a.hasButton then some href
        else none))

/-- Python truthiness fallback `a or b` on strings. -/
def pyOr (a b : String) : String := if a = "" then b else a

/-- Fallback `movie_url.split("/")[-2].replace("-", " ")`, the last-resort title. -/
def splitAllGo (sep : Char) : List Char → List Char → List (List Char)
  | cur, [] => [cur.reverse]
  | cur, c :: rest =>
      if c = sep then cur.reverse :: splitAllGo sep [] rest
      else splitAllGo sep (c :: cur) rest

def movieFallbackTitle (movieUrl : String) : String :=
  let parts := splitAllGo '/' [] movieUrl.data
  String.mk ((parts.getD (parts.length - 2) []).map (fun c => if c = '-' then ' ' else c))

/-- The raw title used for one final link: the final page's own title when
the oracle found one (and it is truthy), else the detail page's title, else
the URL-derived fallback. -/
def titleFor (env : Env) (rawPageTitle fallback resolved : String) : String :=
  match env.finalTitle resolved with
  | some t => if t = "" then pyOr rawPageTitle fallback else t
  | none => pyOr rawPageTitle fallback

/-- The `(clean_title, extract_quality)` pair recorded for one final link. -/
def recordFor (env : Env) (rawPageTitle fallback resolved : String) : String × String :=
  let rawTitle := titleFor env rawPageTitle fallback resolved
  (clean_title rawTitle, extract_quality rawTitle)

/-- The dedup key `f"{title_clean}||{quality}"`. -/
def keyFor (env : Env) (rawPageTitle fallback resolved : String) : String :=
  (recordFor env rawPageTitle fallback resolved).1 ++ "||" ++
    (recordFor env rawPageTitle fallback resolved).2

/-- The inner loop over the ranked final links: resolve shorteners, fetch
the title (`attempt`), skip keys already in `saved_title_quality`, else
write the result and extend the set. -/
def processFinals (env : Env) (rawPageTitle fallback : String) :
    List String → List String → List Event × List String
  | [], savedSet => ([], savedSet)
  | f :: rest, savedSet =>
      let resolved := resolve_shortener_and_get_final env f
      if savedSet.contains (keyFor env rawPageTitle fallback resolved) then
        let t := processFinals env rawPageTitle fallback rest savedSet
        (.attempt :: t.1, t.2)
      else
        let t := processFinals env rawPageTitle fallback rest
          (savedSet ++ [keyFor env rawPageTitle fallback resolved])
        (.attempt ::
          .emit (recordFor env rawPageTitle fallback resolved).1
            (recordFor env rawPageTitle fallback resolved).2 resolved :: t.1,
         t.2)

/-- The loop over intermediary (VGMLINK) candidates: load with retries and
a `requests` fallback; a failed load or an empty final-candidate set skips
to the next candidate; otherwise rank the finals and process them, the
dedup set carried across candidates. -/
def processVgms (env : Env) (rawPageTitle fallback : String) :
    List String → List String → List Event × List String
  | [], savedSet => ([], savedSet)
  | vgm :: rest, savedSet =>
      let load := runRetries (env.vgmGoto vgm) 1 VGMLINK_LOAD_RETRIES
      let lp : List Event × Option PageHtml :=
        match load.2 with
        | some h => (load.1, some h)
        | none => (load.1 ++ [.attempt], env.vgmFetch vgm)
      match lp.2 with
      | none =>
          let t := processVgms env rawPageTitle fallback rest savedSet
          (lp.1 ++ t.1, t.2)
      | some h =>
          let finals := extract_final_candidates_from_html h.anchors
          if finals = [] then
            let t := processVgms env rawPageTitle fallback rest savedSet
            (lp.1 ++ t.1, t.2)
          else
            let ft := processFinals env rawPageTitle fallback (prefer_links finals) savedSet
            let t := processVgms env rawPageTitle fallback rest ft.2
            (lp.1 ++ ft.1 ++ t.1, t.2)

/-- Model of `process_movie` from the source, as the trace of its events: load the
detail page with retries and a `requests` fallback (total failure marks the
candidate processed with zero results), extract and deduplicate
intermediary candidates (none found also marks with zero results), process
them, and finally mark the candidate processed. -/
def process_movie (movieUrl : String) (env : Env) : List Event :=
  let load := runRetries env.movieGoto 1 MOVIE_LOAD_RETRIES
  let lp : List Event × Option PageHtml :=
    match load.2 with
    | some h => (load.1, some h)
    | none => (load.1 ++ [.attempt], env.movieFetch)
  match lp.2 with
  | none => lp.1 ++ [.mark]
  | some h =>
      let rawPageTitle := match h.pageTitle with | some t => t | none => ""
      let fb := movieFallbackTitle movieUrl
      let cands := dedupe (movieCandidates h.anchors)
      if cands = [] then lp.1 ++ [.mark]
      else
        let pv := processVgms env rawPageTitle fb cands []
        lp.1 ++ pv.1 ++ [.mark]

/-- The result records carried by a trace, in emission order. -/
def emits : List Event → List (String × String × String)
  | [] => []
  | .emit t q u :: rest => (t, q, u) :: emits rest
  | _ :: rest => emits rest

/-- The dedup key of an emitted record, `f"{title_clean}||{quality}"`. -/
def recKey (r : String × String × String) : String := r.1 ++ "||" ++ r.2.1

/-- The record a run emits for a resolved final URL: title, quality and the
URL itself. -/
def emitOf (env : Env) (rpt fb u : String) : String × String × String :=
  ((recordFor env rpt fb u).1, (recordFor env rpt fb u).2, u)

/-! ### Specification-side definitions

These follow the words of the specification (not the source) and are used
to state refinement comparisons and counterexamples. -/

/-- The five quality tags, in the order of the source's alternation. -/
def qualityTags : List String := ["2160p", "1080p", "720p", "480p", "360p"]

/-- A case-insensitive occurrence of the quality tag `t` at position `i` of
the character list `cs`. -/
def qMatchB (cs : List Char) (i : Nat) (t : String) : Bool :=
  qualityTags.contains t && startsWithCI t.data (cs.drop i)

/-- A bare season marker as the specification words it: the word `season`,
or `s` followed by one or two digits and a word boundary, with nothing
episode-specific after it. -/
def matchSeasonAt (prev : Option Char) (s : List Char) : Bool :=
  wordAt ['s', 'e', 'a', 's', 'o', 'n'] prev s ||
    (boundaryBefore prev &&
      (match s with
       | c :: rest => lc c = 's' && sxeEnd rest
       | [] => false))

/-- The episode-indicator set exactly as the specification describes it —
`ep`, `episode`, `SxxExx`, and bare season markers. -/
def specEpisodeLike (text : String) : Bool :=
  searchPat matchEpAt none text.data || searchPat matchEpDotAt none text.data ||
    searchPat matchEpisodeAt none text.data || searchPat matchSxEAt none text.data ||
    searchPat matchSeasonAt none text.data

/-- A non-empty string of decimal digits. -/
def isDigitStr (s : String) : Bool :=
  !s.data.isEmpty && s.data.all Char.isDigit

/-- Decimal value of a digit string. -/
def digitsVal (s : String) : Nat :=
  s.data.foldl (fun n c => n * 10 + digitVal c) 0

/-- The claim's numeric forms for the page-range expression: a digit string
`N`, or `N-M` with both sides digit strings. -/
def specNumericForm (s : String) : Bool :=
  isDigitStr s ||
    (let p := s.data.span Char.isDigit
     match p.2 with
     | c :: b => c = '-' && !p.1.isEmpty && !b.isEmpty && b.all Char.isDigit
     | [] => false)

/-! ### Concrete environments used by the claims' scenarios -/

/-- A detail page with two intermediary hops that both yield the same
1080p final link. -/
def scenarioEnv : Env where
  movieGoto := fun n =>
    if n = 1 then
      some { pageTitle := some "Some Movie 1080p - VegaMovies",
             anchors := [ { href := "https://vgml.example/one", text := "Download Batch", hasButton := false },
                          { href := "https://vgml.example/two", text := "Download Zip", hasButton := false } ] }
    else none
  movieFetch := none
  vgmGoto := fun u n =>
    if n = 1 && (u = "https://vgml.example/one" || u = "https://vgml.example/two") then
      some { pageTitle := none,
             anchors := [ { href := "https://gdtot.example/file1080", text := "Download 1080p", hasButton := true } ] }
    else none
  vgmFetch := fun _ => none
  shortenerResolve := fun u => u
  finalTitle := fun u =>
    if u = "https://gdtot.example/file1080" then some "Awesome Movie 2024 1080p WEB-DL" else none

/-- A run whose final page carries the raw title `"download"`, which
`clean_title` reduces to the empty string. -/
def emptyTitleEnv : Env where
  movieGoto := fun n =>
    if n = 1 then
      some { pageTitle := some "Ignored",
             anchors := [ { href := "https://vgml.example/only", text := "Download Batch", hasButton := false } ] }
    else none
  movieFetch := none
  vgmGoto := fun u n =>
    if n = 1 && u = "https://vgml.example/only" then
      some { pageTitle := none,
             anchors := [ { href := "https://gdtot.example/file0", text := "Get File", hasButton := true } ] }
    else none
  vgmFetch := fun _ => none
  shortenerResolve := fun u => u
  finalTitle := fun u =>
    if u = "https://gdtot.example/file0" then some "download" else none

end Scraper

namespace Scraper

/-! ## Theorems -/

/-- C3: the claim that `clean_title` returns a non-empty string for every
input fails on the code: the input `"download"` consists entirely of the
removable junk vocabulary and cleans to the empty string. -/
theorem clean_title_can_be_empty_cex : clean_title "download" = "" := by decide

/-- C3 (amended): `clean_title` never raises and returns `"Unknown"` for
the empty input, but for some non-empty inputs made only of removable
tokens it returns the empty string, and consequently a run can emit a
`ResultRecord` whose title is the empty string. -/
theorem clean_title_empty_input_spec :
    clean_title "" = "Unknown" ∧ clean_title "download" = "" ∧
      emits (process_movie "https://example.site/movies/x/" emptyTitleEnv)
        = [("", "Unknown", "https://gdtot.example/file0")] := by
  refine ⟨by decide, by decide, by decide⟩

/-- C5: `clean_title` is not idempotent: on `"dual  audio"` the whitespace
collapse of the first pass re-creates the junk phrase `"dual audio"`, which
the second pass removes entirely. -/
theorem clean_title_not_idempotent_cex :
    clean_title (clean_title "dual  audio") ≠ clean_title "dual  audio" := by decide

/-- C5 (amended): `clean_title` is not idempotent in general —
`clean_title "dual  audio" = "Dual Audio"` while
`clean_title "Dual Audio" = ""` — although the `"Unknown"` produced for the
empty input is a fixed point. -/
theorem clean_title_idempotence_spec :
    clean_title "dual  audio" = "Dual Audio" ∧ clean_title "Dual Audio" = "" ∧
      clean_title (clean_title "") = clean_title "" := by
  refine ⟨by decide, by decide, by decide⟩

/-- C8: `safe_load_json` never raises: a missing file, a failed read and
unparsable content each produce the empty map, and in every case the result
is either the empty map or the successfully parsed value. -/
theorem safe_load_json_spec :
    (∀ rf pj, safe_load_json false rf pj = emptyObj) ∧
      (∀ e pj, safe_load_json true (.error e) pj = emptyObj) ∧
      (∀ c pj e, pj c = Except.error e → safe_load_json true (.ok c) pj = emptyObj) ∧
      (∀ fe rf pj, safe_load_json fe rf pj = emptyObj ∨
        ∃ c v, rf = Except.ok c ∧ pj c = Except.ok v ∧ safe_load_json fe rf pj = v) := by
  refine ⟨fun rf pj => rfl, fun e pj => rfl, ?_, ?_⟩
  · intro c pj e h
    simp [safe_load_json, h]
  · intro fe rf pj
    cases fe with
    | false => exact Or.inl rfl
    | true =>
        cases rf with
        | error e => exact Or.inl rfl
        | ok c =>
            cases hp : pj c with
            | error e => exact Or.inl (by simp [safe_load_json, hp])
            | ok v => exact Or.inr ⟨c, v, rfl, hp, by simp [safe_load_json, hp]⟩

theorem safe_load_json_spec_witness :
    safe_load_json true (Except.ok "not json") (fun _ => Except.error "bad") = emptyObj :=
  safe_load_json_spec.2.2.1 "not json" (fun _ => Except.error "bad") "bad" rfl

/-- C6: the claim's episode-indicator set includes bare season markers, but
the code's `EPISODE_PATTERNS` has none: the claim's own example text
`"Season 1 Batch Zip"` matches the specification's pattern set while
`is_episode` returns `false` on it. -/
theorem is_episode_season_cex :
    specEpisodeLike "Season 1 Batch Zip" = true ∧
      is_episode "Season 1 Batch Zip" = false := by
  refine ⟨by decide, by decide⟩

/-- C6 (amended): `is_episode` returns true exactly when the text matches
one of the patterns `ep`, `ep.`, `episode`, `SxxExx` (case-insensitively);
bare season markers are not part of the set; `"S01E04"` is episode-like and
`"Season 1 Batch Zip"` is not. -/
theorem is_episode_spec :
    (∀ s : String, is_episode s =
        (searchPat matchEpAt none s.data || searchPat matchEpDotAt none s.data ||
          searchPat matchEpisodeAt none s.data || searchPat matchSxEAt none s.data)) ∧
      is_episode "S01E04" = true ∧ is_episode "Season 1 Batch Zip" = false := by
  refine ⟨?_, by decide, by decide⟩
  intro s
  by_cases h : s = ""
  · subst h
    decide
  · simp only [is_episode, if_neg h, EPISODE_PATTERNS, List.any_cons, List.any_nil,
      Bool.or_false]
    cases searchPat matchSxEAt none s.data <;> simp [Bool.or_assoc]

/-- A case-insensitive match of a nonempty pattern forces the lowercase of
the first text character. -/
lemma qhead {p b : Char} {ps bs : List Char}
    (h : startsWithCI (p :: ps) (b :: bs) = true) : lc b = lc p := by
  simp only [startsWithCI, Bool.and_eq_true, decide_eq_true_eq] at h
  exact h.1.symm

lemma qdata2160 : "2160p".data = '2' :: '1' :: '6' :: '0' :: 'p' :: [] := rfl

lemma qdata1080 : "1080p".data = '1' :: '0' :: '8' :: '0' :: 'p' :: [] := rfl

lemma qdata720 : "720p".data = '7' :: '2' :: '0' :: 'p' :: [] := rfl

lemma qdata480 : "480p".data = '4' :: '8' :: '0' :: 'p' :: [] := rfl

lemma qdata360 : "360p".data = '3' :: '6' :: '0' :: 'p' :: [] := rfl

/-- A string contained in `qualityTags` is one of the five tags. -/
lemma mem_qualityTags {t : String} (h : qualityTags.contains t = true) :
    t = "2160p" ∨ t = "1080p" ∨ t = "720p" ∨ t = "480p" ∨ t = "360p" := by
  have hm : t ∈ qualityTags := by simpa using h
  simpa [qualityTags] using hm

/-- At most one quality tag matches at a given position: the five tags have
pairwise distinct first characters. -/
lemma qMatch_unique {cs : List Char} {t₁ t₂ : String}
    (h1 : qMatchB cs 0 t₁ = true) (h2 : qMatchB cs 0 t₂ = true) : t₁ = t₂ := by
  simp only [qMatchB, Bool.and_eq_true, List.drop_zero] at h1 h2
  obtain ⟨m1, s1⟩ := h1
  obtain ⟨m2, s2⟩ := h2
  rcases mem_qualityTags m1 with rfl | rfl | rfl | rfl | rfl <;>
    rcases mem_qualityTags m2 with rfl | rfl | rfl | rfl | rfl <;>
    simp only [qdata2160, qdata1080, qdata720, qdata480, qdata360] at s1 s2 <;>
    first
      | rfl
      | (cases cs with
         | nil => exact absurd s1 (by decide)
         | cons b bs =>
             have e1 := qhead s1
             have e2 := qhead s2
             rw [e2] at e1
             exact absurd e1 (by decide))

/-- Introduction form for a tag occurrence at offset 0. -/
lemma qMatchB_zero_intro {cs : List Char} {t : String}
    (hc : qualityTags.contains t = true)
    (hs : startsWithCI t.data cs = true) : qMatchB cs 0 t = true := by
  unfold qMatchB
  rw [List.drop_zero, hc, hs]
  rfl

/-- Forward direction of the alternation: a returned tag matches at the
current position. -/
lemma tagAt_matches {cs : List Char} {t : String} (h : tagAt cs = some t) :
    qMatchB cs 0 t = true := by
  unfold tagAt at h
  split_ifs at h with h1 h2 h3 h4 h5 <;> cases h
  exacts [qMatchB_zero_intro (by decide) h1, qMatchB_zero_intro (by decide) h2,
    qMatchB_zero_intro (by decide) h3, qMatchB_zero_intro (by decide) h4,
    qMatchB_zero_intro (by decide) h5]

/-- Backward direction: a match at the current position makes the
alternation return that tag. -/
lemma tagAt_of_match {cs : List Char} {t : String} (h : qMatchB cs 0 t = true) :
    tagAt cs = some t := by
  cases ht : tagAt cs with
  | some t'' => rw [qMatch_unique (tagAt_matches ht) h]
  | none =>
      exfalso
      simp only [qMatchB, Bool.and_eq_true, List.drop_zero] at h
      obtain ⟨m1, s1⟩ := h
      unfold tagAt at ht
      split_ifs at ht with h1 h2 h3 h4 h5
      rcases mem_qualityTags m1 with rfl | rfl | rfl | rfl | rfl <;>
        simp only [qdata2160, qdata1080, qdata720, qdata480, qdata360] at s1
      exacts [h1 s1, h2 s1, h3 s1, h4 s1, h5 s1]

lemma qMatchB_nil (i : Nat) (t : String) : qMatchB [] i t = false := by
  by_cases h : qualityTags.contains t = true
  · rcases mem_qualityTags h with rfl | rfl | rfl | rfl | rfl <;>
      (simp only [qMatchB, List.drop_nil]; decide)
  · have hc : qualityTags.contains t = false := by
      cases hx : qualityTags.contains t
      · rfl
      · exact absurd hx h
    unfold qMatchB
    rw [List.drop_nil, hc]
    rfl

/-- Shifting the scan by one position. -/
lemma qMatchB_shift (c : Char) (rest : List Char) (j : Nat) (t : String) :
    qMatchB (c :: rest) (j + 1) t = qMatchB rest j t := by
  simp [qMatchB, List.drop_succ_cons]

/-- The scan finds the leftmost match. -/
lemma searchQ_eq_some {cs : List Char} {i : Nat} {t : String}
    (h : qMatchB cs i t = true)
    (hmin : ∀ j t', j < i → qMatchB cs j t' = false) :
    searchQ cs = some t := by
  induction cs generalizing i with
  | nil => rw [qMatchB_nil] at h; exact absurd h (by simp)
  | cons c rest ih =>
      cases i with
      | zero => simp [searchQ, tagAt_of_match h]
      | succ j =>
          have h0 : tagAt (c :: rest) = none := by
            cases ht : tagAt (c :: rest) with
            | none => rfl
            | some t'' =>
                have hh := tagAt_matches ht
                rw [hmin 0 t'' (Nat.succ_pos j)] at hh
                exact absurd hh (by simp)
          have h' : qMatchB rest j t = true := by
            rw [← qMatchB_shift c rest j t]; exact h
          have hmin' : ∀ k t', k < j → qMatchB rest k t' = false := by
            intro k t' hk
            rw [← qMatchB_shift c rest k t']
            exact hmin (k + 1) t' (Nat.succ_lt_succ hk)
          simp only [searchQ, h0]
          exact ih h' hmin'

/-- The scan finds nothing when no position matches. -/
lemma searchQ_eq_none {cs : List Char} (h : ∀ i t, qMatchB cs i t = false) :
    searchQ cs = none := by
  induction cs with
  | nil => rfl
  | cons c rest ih =>
      have h0 : tagAt (c :: rest) = none := by
        cases ht : tagAt (c :: rest) with
        | none => rfl
        | some t'' =>
            have hh := tagAt_matches ht
            rw [h 0 t''] at hh
            exact absurd hh (by simp)
      simp only [searchQ, h0]
      exact ih (fun i t => by rw [← qMatchB_shift c rest i t]; exact h (i + 1) t)

/-- C4: the claim says the no-match value of `extract_quality` is the
lowercase `"unknown"`; the code returns the capitalized `"Unknown"`. -/
theorem extract_quality_unknown_cex :
    extract_quality "Movie" = "Unknown" ∧ extract_quality "Movie" ≠ "unknown" := by
  refine ⟨by decide, by decide⟩

/-- C4 (amended): `extract_quality` returns the first left-to-right
case-insensitive match among the five quality tags, and `"Unknown"`
(capitalized) when no tag occurs; `extract_quality "Movie.2160p.BluRay" =
"2160p"` and `extract_quality "Movie" = "Unknown"`. -/
theorem extract_quality_spec :
    (∀ (s : String) (i : Nat) (t : String), qMatchB s.data i t = true →
        (∀ j t', j < i → qMatchB s.data j t' = false) → extract_quality s = t) ∧
      (∀ s : String, (∀ i t, qMatchB s.data i t = false) →
        extract_quality s = "Unknown") ∧
      extract_quality "Movie.2160p.BluRay" = "2160p" ∧
      extract_quality "Movie" = "Unknown" := by
  refine ⟨?_, ?_, by decide, by decide⟩
  · intro s i t h hmin
    by_cases hs : s = ""
    · subst hs
      rw [show ("" : String).data = [] from rfl, qMatchB_nil] at h
      exact absurd h (by simp)
    · simp only [extract_quality, if_neg hs, searchQ_eq_some h hmin]
  · intro s h
    by_cases hs : s = ""
    · simp [extract_quality, hs]
    · simp only [extract_quality, if_neg hs, searchQ_eq_none h]

theorem extract_quality_spec_witness :
    qMatchB "720p".data 0 "720p" = true ∧ extract_quality "720p" = "720p" :=
  ⟨by decide, extract_quality_spec.1 "720p" 0 "720p" (by decide)
    (fun j t' hj => absurd hj (Nat.not_lt_zero j))⟩

/-- Inserting keeps the elements: the result is a permutation of the cons. -/
lemma insertScored_perm (x : String) (l : List String) :
    (insertScored x l).Perm (x :: l) := by
  induction l with
  | nil => exact List.Perm.refl _
  | cons y ys ih =>
      by_cases h : score y ≤ score x
      · simp only [insertScored, if_pos h]
        exact (ih.cons y).trans (List.Perm.swap x y ys)
      · simp only [insertScored, if_neg h]
        exact List.Perm.refl _

/-- Inserting into a score-sorted list keeps it score-sorted. -/
lemma insertScored_sorted {x : String} {l : List String}
    (h : l.Pairwise (fun a b => score a ≤ score b)) :
    (insertScored x l).Pairwise (fun a b => score a ≤ score b) := by
  induction l with
  | nil => simp [insertScored]
  | cons y ys ih =>
      rcases List.pairwise_cons.mp h with ⟨hy, hys⟩
      by_cases hc : score y ≤ score x
      · simp only [insertScored, if_pos hc]
        refine List.pairwise_cons.mpr ⟨?_, ih hys⟩
        intro z hz
        rcases List.mem_cons.mp ((insertScored_perm x ys).mem_iff.mp hz) with rfl | hz'
        · exact hc
        · exact hy z hz'
      · have hlt : score x < score y := Nat.lt_of_not_le hc
        simp only [insertScored, if_neg hc]
        refine List.pairwise_cons.mpr ⟨?_, h⟩
        intro z hz
        rcases List.mem_cons.mp hz with rfl | hz'
        · exact Nat.le_of_lt hlt
        · exact Nat.le_trans (Nat.le_of_lt hlt) (hy z hz')

/-- Stability of one insertion: among the elements of any fixed score `k`,
the inserted element lands last, and every other score class is untouched. -/
lemma filter_insertScored (x : String) (k : Nat) {l : List String}
    (h : l.Pairwise (fun a b => score a ≤ score b)) :
    (insertScored x l).filter (fun u => score u == k) =
      (if score x = k then l.filter (fun u => score u == k) ++ [x]
       else l.filter (fun u => score u == k)) := by
  induction l with
  | nil =>
      by_cases hx : score x = k <;>
        simp [insertScored, List.filter_cons, hx, beq_iff_eq]
  | cons y ys ih =>
      rcases List.pairwise_cons.mp h with ⟨hy, hys⟩
      by_cases hc : score y ≤ score x
      · simp only [insertScored, if_pos hc, List.filter_cons]
        rw [ih hys]
        by_cases hx : score x = k <;> by_cases hyk : score y = k <;>
          simp [hx, hyk, beq_iff_eq, List.append_assoc]
      · have hlt : score x < score y := Nat.lt_of_not_le hc
        simp only [insertScored, if_neg hc]
        rw [List.filter_cons]
        by_cases hx : score x = k
        · have hnil : (y :: ys).filter (fun u => score u == k) = [] := by
            rw [List.filter_eq_nil_iff]
            intro a ha
            have hge : score y ≤ score a := by
              rcases List.mem_cons.mp ha with rfl | ha'
              · exact Nat.le_refl _
              · exact hy a ha'
            have hgt : k < score a := Nat.lt_of_lt_of_le (hx ▸ hlt) hge
            simp only [beq_iff_eq]
            omega
          rw [hnil]
          simp [hx]
        · simp [hx, beq_iff_eq]

/-- Folding insertions preserves sortedness of the accumulator. -/
lemma foldl_insert_sorted (l : List String) :
    ∀ acc, acc.Pairwise (fun a b => score a ≤ score b) →
      (l.foldl (fun a x => insertScored x a) acc).Pairwise
        (fun a b => score a ≤ score b) := by
  induction l with
  | nil => exact fun acc h => h
  | cons x xs ih => exact fun acc h => ih _ (insertScored_sorted h)

/-- Folding insertions accumulates exactly the input elements. -/
lemma foldl_insert_perm (l : List String) :
    ∀ acc, (l.foldl (fun a x => insertScored x a) acc).Perm (acc ++ l) := by
  induction l with
  | nil => intro acc; simp
  | cons x xs ih =>
      intro acc
      have h1 := ih (insertScored x acc)
      have h2 : (insertScored x acc ++ xs).Perm ((x :: acc) ++ xs) :=
        (insertScored_perm x acc).append_right xs
      have h3 : ((x :: acc) ++ xs) = x :: (acc ++ xs) := rfl
      refine (h1.trans (h2.trans ?_))
      rw [h3]
      exact List.perm_middle.symm

/-- Folding insertions is stable on every score class. -/
lemma foldl_insert_filter (l : List String) (k : Nat) :
    ∀ acc, acc.Pairwise (fun a b => score a ≤ score b) →
      (l.foldl (fun a x => insertScored x a) acc).filter (fun u => score u == k) =
        acc.filter (fun u => score u == k) ++ l.filter (fun u => score u == k) := by
  induction l with
  | nil => intro acc _; simp
  | cons x xs ih =>
      intro acc h
      rw [List.foldl_cons, ih _ (insertScored_sorted h), filter_insertScored x k h,
        List.filter_cons]
      by_cases hx : score x = k
      · simp [hx]
      · simp [hx]

/-- A URL matching no `HOST_PRIORITY` entry gets the past-the-end score. -/
lemma scoreGo_all_fail {low : List Char} {hosts : List String} :
    ∀ n, (∀ h' ∈ hosts, containsSub h'.data low = false) →
      scoreGo low hosts n = n + hosts.length := by
  induction hosts with
  | nil => intro n _; simp [scoreGo]
  | cons h0 hs ih =>
      intro n h
      have hf := h h0 (List.mem_cons_self h0 hs)
      simp only [scoreGo, hf, Bool.false_eq_true, if_false]
      rw [ih (n + 1) (fun h' hh => h h' (List.mem_cons_of_mem _ hh))]
      simp only [List.length_cons]
      omega

/-- C7: `prefer_links` sorts ascending by `score` (so non-matching URLs,
whose score is the length of `HOST_PRIORITY`, come last), the sort is
stable (every score class keeps its discovery order), and on the claim's
example list the best URL is the gdtot one. -/
theorem prefer_links_spec :
    (∀ l : List String, (prefer_links l).Pairwise (fun a b => score a ≤ score b)) ∧
      (∀ (l : List String) (k : Nat),
        (prefer_links l).filter (fun u => score u == k) =
          l.filter (fun u => score u == k)) ∧
      (∀ u : String, (∀ h, h ∈ HOST_PRIORITY →
          containsSub h.data (lowerList u.data) = false) →
        score u = HOST_PRIORITY.length) ∧
      prefer_links ["https://randomhost.com/x", "https://gdflix.example/y",
          "https://gdtot.example/z"] =
        ["https://gdtot.example/z", "https://gdflix.example/y",
          "https://randomhost.com/x"] := by
  refine ⟨?_, ?_, ?_, by decide⟩
  · intro l
    exact foldl_insert_sorted l [] (List.Pairwise.nil)
  · intro l k
    have := foldl_insert_filter l k [] (List.Pairwise.nil)
    simpa [prefer_links] using this
  · intro u h
    have := @scoreGo_all_fail (lowerList u.data) HOST_PRIORITY 0 h
    simpa [score] using this

theorem prefer_links_spec_witness :
    (∀ h, h ∈ HOST_PRIORITY →
        containsSub h.data (lowerList "https://nomatch.example/a".data) = false) ∧
      score "https://nomatch.example/a" = HOST_PRIORITY.length :=
  ⟨by decide, prefer_links_spec.2.2.1 "https://nomatch.example/a" (by decide)⟩

/-- C10: `prefer_links` returns a permutation of its input: no URL is
dropped, added or modified by the ranking step. -/
theorem prefer_links_permutation :
    ∀ l : List String, (prefer_links l).Perm l := by
  intro l
  have := foldl_insert_perm l []
  simpa [prefer_links] using this

/-- A digit is not whitespace. -/
lemma digit_not_ws {c : Char} (h : c.isDigit = true) : isWs c = false := by
  cases hc : isWs c
  · rfl
  · exfalso
    simp only [isWs, Bool.or_eq_true, decide_eq_true_eq] at hc
    rcases hc with ((((rfl | rfl) | rfl) | rfl) | rfl) | rfl <;>
      exact absurd h (by decide)

/-- The digit accumulator runs to completion over an all-digit tail. -/
lemma natGo_digits {l : List Char} (h : ∀ c ∈ l, c.isDigit = true) :
    ∀ acc, natGo acc l = some (l.foldl (fun n c => n * 10 + digitVal c) acc) := by
  induction l with
  | nil => intro acc; rfl
  | cons c rest ih =>
      intro acc
      have hc := h c (List.mem_cons_self c rest)
      rw [natGo.eq_def]
      simp only [hc, if_true, List.foldl_cons]
      exact ih (fun c' hc' => h c' (List.mem_cons_of_mem _ hc')) _

/-- The digit part of a nonempty all-digit list is its decimal value. -/
lemma natPart_digits {l : List Char} (hne : l ≠ [])
    (h : ∀ c ∈ l, c.isDigit = true) :
    natPart l = some (l.foldl (fun n c => n * 10 + digitVal c) 0) := by
  cases l with
  | nil => exact absurd rfl hne
  | cons c rest =>
      have hc := h c (List.mem_cons_self c rest)
      rw [natPart.eq_def]
      simp only [hc, if_true, List.foldl_cons]
      have hz : (0 : Nat) * 10 + digitVal c = digitVal c := by omega
      rw [hz]
      exact natGo_digits (fun c' hc' => h c' (List.mem_cons_of_mem _ hc')) _

/-- The function `dropWhile` is the identity when no element satisfies the predicate. -/
lemma dropWhile_eq_self_of_all {l : List Char} {p : Char → Bool}
    (h : ∀ c ∈ l, p c = false) : l.dropWhile p = l := by
  cases l with
  | nil => rfl
  | cons c r => simp [List.dropWhile_cons, h c (List.mem_cons_self c r)]

/-- Stripping is the identity on whitespace-free lists. -/
lemma stripWs_id {l : List Char} (h : ∀ c ∈ l, isWs c = false) : stripWs l = l := by
  unfold stripWs
  rw [dropWhile_eq_self_of_all h,
    dropWhile_eq_self_of_all (fun c hc => h c (List.mem_reverse.mp hc)),
    List.reverse_reverse]

/-- Python `int()` on a nonempty digit list. -/
lemma pyInt_digits {l : List Char} (hne : l ≠ [])
    (h : ∀ c ∈ l, c.isDigit = true) :
    pyInt l = some (Int.ofNat (l.foldl (fun n c => n * 10 + digitVal c) 0)) := by
  unfold pyInt
  rw [stripWs_id (fun c hc => digit_not_ws (h c hc))]
  cases l with
  | nil => exact absurd rfl hne
  | cons c rest =>
      have hc := h c (List.mem_cons_self c rest)
      have h1 : c ≠ '+' := fun e => absurd (e ▸ hc) (by decide)
      have h2 : c ≠ '-' := fun e => absurd (e ▸ hc) (by decide)
      simp only [if_neg h1, if_neg h2, natPart_digits (List.cons_ne_nil c rest) h]
      rfl

/-- The function `splitDash` splits at the first dash. -/
lemma splitDash_append {a b : List Char} (h : ∀ c ∈ a, c ≠ '-') :
    splitDash (a ++ '-' :: b) = (a, b) := by
  induction a with
  | nil => rfl
  | cons c a' ih =>
      have hc : c ≠ '-' := h c (List.mem_cons_self c a')
      simp [splitDash, hc, ih (fun c' hc' => h c' (List.mem_cons_of_mem _ hc'))]

/-- A list avoiding a character does not contain it. -/
lemma contains_eq_false_of_not_mem {l : List Char} {c : Char} (h : c ∉ l) :
    l.contains c = false := by
  cases hx : l.contains c
  · rfl
  · exact absurd (by simpa using hx) h

/-- Core computation of `parse_pages_input` on the digits-dash-digits form. -/
lemma parse_ok_of_parts {a b : List Char} (hna : a ≠ []) (hnb : b ≠ [])
    (hda : ∀ c ∈ a, c.isDigit = true) (hdb : ∀ c ∈ b, c.isDigit = true)
    {s : String} (hs : s.data = a ++ '-' :: b) :
    parse_pages_input s =
      .ok (pyRange (Int.ofNat (a.foldl (fun n c => n * 10 + digitVal c) 0))
        (Int.ofNat (b.foldl (fun n c => n * 10 + digitVal c) 0) + 1)) := by
  have hsne : s ≠ "" := fun e => by
    rw [e] at hs
    exact absurd hs.symm (List.append_ne_nil_of_right_ne_nil a (List.cons_ne_nil _ _))
  have hall : ∀ c ∈ a ++ '-' :: b, isWs c = false := by
    intro c hcm
    rcases List.mem_append.mp hcm with hm | hm
    · exact digit_not_ws (hda c hm)
    · rcases List.mem_cons.mp hm with rfl | hm'
      · decide
      · exact digit_not_ws (hdb c hm')
  have hcont : (a ++ '-' :: b).contains '-' = true := by
    simp
  have hsplit := @splitDash_append a b
    (fun c hc => fun e => absurd (e ▸ hda c hc) (by decide))
  simp only [parse_pages_input, if_neg hsne, hs, stripWs_id hall, hcont, if_true,
    hsplit, pyInt_digits hna hda, pyInt_digits hnb hdb]

/-- Core computation of `parse_pages_input` on the all-digits form. -/
lemma parse_ok_of_digits {s : String} (h : isDigitStr s = true) :
    parse_pages_input s = .ok [(digitsVal s : Int)] := by
  simp only [isDigitStr, Bool.and_eq_true, Bool.not_eq_true', List.all_eq_true] at h
  obtain ⟨hne', hd⟩ := h
  have hne : s.data ≠ [] := by
    intro e
    rw [e] at hne'
    exact absurd hne' (by decide)
  have hdall : ∀ c ∈ s.data, c.isDigit = true := fun c hc => hd c hc
  have hsne : s ≠ "" := fun e => hne (by rw [e])
  have hnc : s.data.contains '-' = false :=
    contains_eq_false_of_not_mem (fun hm => absurd (hdall '-' hm) (by decide))
  simp only [parse_pages_input, if_neg hsne,
    stripWs_id (fun c hc => digit_not_ws (hdall c hc)), hnc, Bool.false_eq_true,
    if_false, pyInt_digits hne hdall]
  rfl

/-- The list `pyRange` with natural endpoints is the usual integer interval. -/
lemma pyRange_nat (n len : Nat) :
    pyRange (n : Int) ((n : Int) + (len : Int)) =
      List.map Int.ofNat (List.range' n len) := by
  unfold pyRange
  have h1 : ((n : Int) + (len : Int) - (n : Int)).toNat = len := by omega
  rw [h1, List.range'_eq_map_range, List.map_map]
  apply List.map_congr_left
  intro x hx
  simp [Int.ofNat_add]

/-- C9: the claim that `parse_pages_input` raises exactly on non-numeric
forms fails: Python `int` also accepts signs, inner whitespace and
underscore digit grouping, so `"1_2"` parses to `[12]` without raising
although it is not of the numeric form `N` or `N-M`. -/
theorem parse_pages_exactness_cex :
    parse_pages_input "1_2" = .ok [(12 : Int)] ∧ specNumericForm "1_2" = false := by
  refine ⟨by rfl, by decide⟩

/-- C9 (amended): `parse_pages_input` returns `[N]` for a digit string `N`
and `[N, ..., M]` for `N-M` with digit strings `N`, `M`, and raises only
when the expression is not of one of these numeric forms (some further
expressions accepted by Python's `int`, such as signed or
underscore-grouped numbers, also parse without raising). -/
theorem parse_pages_spec :
    (∀ s : String, isDigitStr s = true →
        parse_pages_input s = .ok [(digitsVal s : Int)]) ∧
      (∀ a b : String, isDigitStr a = true → isDigitStr b = true →
        parse_pages_input (a ++ "-" ++ b) =
          .ok (pyRange (digitsVal a) ((digitsVal b : Int) + 1))) ∧
      (∀ n m : Nat, n ≤ m →
        pyRange (n : Int) ((m : Int) + 1) =
          List.map Int.ofNat (List.range' n (m + 1 - n))) ∧
      (∀ s : String, parse_pages_input s = .error () → specNumericForm s = false) := by
  refine ⟨fun s h => parse_ok_of_digits h, ?_, ?_, ?_⟩
  · intro a b ha hb
    simp only [isDigitStr, Bool.and_eq_true, Bool.not_eq_true',
      List.all_eq_true] at ha hb
    obtain ⟨hna', hda⟩ := ha
    obtain ⟨hnb', hdb⟩ := hb
    have hna : a.data ≠ [] := by
      intro e
      rw [e] at hna'
      exact absurd hna' (by decide)
    have hnb : b.data ≠ [] := by
      intro e
      rw [e] at hnb'
      exact absurd hnb' (by decide)
    have hs : (a ++ "-" ++ b).data = a.data ++ '-' :: b.data := by
      rw [String.data_append, String.data_append]
      simp
    exact parse_ok_of_parts hna hnb (fun c hc => hda c hc) (fun c hc => hdb c hc) hs
  · intro n m h
    have he : ((m : Int) + 1) = (n : Int) + ((m + 1 - n : Nat) : Int) := by omega
    rw [he, pyRange_nat]
  · intro s herr
    cases hform : specNumericForm s
    · rfl
    · exfalso
      simp only [specNumericForm, Bool.or_eq_true] at hform
      rcases hform with hd | hm
      · rw [parse_ok_of_digits hd] at herr
        exact Except.noConfusion herr
      · rcases hsp : s.data.span Char.isDigit with ⟨a, rest⟩
        rw [hsp] at hm
        cases rest with
        | nil => exact absurd hm (by simp)
        | cons c b =>
            simp only [Bool.and_eq_true, Bool.not_eq_true', List.all_eq_true,
              decide_eq_true_eq] at hm
            obtain ⟨⟨⟨hcdash, hna'⟩, hnb'⟩, hdb⟩ := hm
            subst hcdash
            have hna : a ≠ [] := by
              intro e
              rw [e] at hna'
              exact absurd hna' (by decide)
            have hnb : b ≠ [] := by
              intro e
              rw [e] at hnb'
              exact absurd hnb' (by decide)
            have hspan := hsp
            rw [List.span_eq_take_drop] at hspan
            have h1 : s.data.takeWhile Char.isDigit = a := congrArg Prod.fst hspan
            have h2 : s.data.dropWhile Char.isDigit = '-' :: b := congrArg Prod.snd hspan
            have hs : s.data = a ++ '-' :: b := by
              rw [← h1, ← h2, List.takeWhile_append_dropWhile]
            have hda : ∀ c' ∈ a, c'.isDigit = true := by
              intro c' hc'
              rw [← h1] at hc'
              exact List.mem_takeWhile_imp hc'
            rw [parse_ok_of_parts hna hnb hda (fun c' hc' => hdb c' hc') hs] at herr
            exact Except.noConfusion herr

theorem parse_pages_spec_witness :
    isDigitStr "12" = true ∧ parse_pages_input "12" = .ok [(digitsVal "12" : Int)] ∧
      parse_pages_input ("3" ++ "-" ++ "5") =
        .ok (pyRange (digitsVal "3") ((digitsVal "5" : Int) + 1)) ∧
      pyRange ((3 : Nat) : Int) (((5 : Nat) : Int) + 1) =
        List.map Int.ofNat (List.range' 3 (5 + 1 - 3)) ∧
      parse_pages_input "abc" = .error () ∧ specNumericForm "abc" = false :=
  ⟨by decide, parse_pages_spec.1 "12" (by decide),
    parse_pages_spec.2.1 "3" "5" (by decide) (by decide),
    parse_pages_spec.2.2.1 3 5 (by decide),
    by rfl, parse_pages_spec.2.2.2 "abc" (by rfl)⟩

/-- Every event produced by a retry loop is a load attempt. -/
lemma runRetries_all_attempt (f : Nat → Option PageHtml) :
    ∀ n start, ∀ e ∈ (runRetries f start n).1, e = Event.attempt := by
  intro n
  induction n with
  | zero => intro start e he; simp [runRetries] at he
  | succ k ih =>
      intro start e he
      cases hf : f start with
      | some h =>
          simp only [runRetries, hf] at he
          simpa using he
      | none =>
          simp only [runRetries, hf] at he
          rcases List.mem_cons.mp he with rfl | he'
          · rfl
          · exact ih (start + 1) e he'

/-- A retry loop with at least one round always records an attempt. -/
lemma runRetries_has_attempt (f : Nat → Option PageHtml) (start k : Nat) :
    Event.attempt ∈ (runRetries f (start) (k + 1)).1 := by
  cases hf : f start <;> simp [runRetries, hf]

/-- The final-link loop never marks the ledger. -/
lemma processFinals_no_mark (env : Env) (rpt fb : String) :
    ∀ fs set, ∀ e ∈ (processFinals env rpt fb fs set).1, e ≠ Event.mark := by
  intro fs
  induction fs with
  | nil => intro set e he; simp [processFinals] at he
  | cons f rest ih =>
      intro set e he
      simp only [processFinals] at he
      split at he
      · rcases List.mem_cons.mp he with rfl | he'
        · simp
        · exact ih set e he'
      · rcases List.mem_cons.mp he with rfl | he'
        · simp
        · rcases List.mem_cons.mp he' with rfl | he''
          · simp
          · exact ih _ e he''

/-- The intermediary loop never marks the ledger. -/
lemma processVgms_no_mark (env : Env) (rpt fb : String) :
    ∀ vs set, ∀ e ∈ (processVgms env rpt fb vs set).1, e ≠ Event.mark := by
  intro vs
  induction vs with
  | nil => intro set e he; simp [processVgms] at he
  | cons vgm rest ih =>
      intro set e he
      simp only [processVgms] at he
      cases hl : (runRetries (env.vgmGoto vgm) 1 VGMLINK_LOAD_RETRIES).2 with
      | some h =>
          rw [hl] at he
          simp only at he
          cases hh : extract_final_candidates_from_html h.anchors with
          | nil =>
              rw [hh] at he
              simp only [if_pos rfl] at he
              rcases List.mem_append.mp he with hm | hm
              · intro hmark
                subst hmark
                have := runRetries_all_attempt (env.vgmGoto vgm)
                    VGMLINK_LOAD_RETRIES 1 _ hm
                exact Event.noConfusion this
              · exact ih set e hm
          | cons c cs =>
              rw [hh] at he
              rw [if_neg (List.cons_ne_nil c cs)] at he
              rcases List.mem_append.mp he with hm | hm
              · rcases List.mem_append.mp hm with hm' | hm'
                · intro hmark
                  subst hmark
                  have := runRetries_all_attempt (env.vgmGoto vgm)
                      VGMLINK_LOAD_RETRIES 1 _ hm'
                  exact Event.noConfusion this
                · exact processFinals_no_mark env rpt fb _ _ e hm'
              · exact ih _ e hm
      | none =>
          rw [hl] at he
          simp only at he
          cases hf : env.vgmFetch vgm with
          | none =>
              rw [hf] at he
              simp only at he
              rcases List.mem_append.mp he with hm | hm
              · rcases List.mem_append.mp hm with hm' | hm'
                · intro hmark
                  subst hmark
                  have := runRetries_all_attempt (env.vgmGoto vgm)
                      VGMLINK_LOAD_RETRIES 1 _ hm'
                  exact Event.noConfusion this
                · intro hmark
                  subst hmark
                  simp at hm'
              · exact ih set e hm
          | some h =>
              rw [hf] at he
              simp only at he
              cases hh : extract_final_candidates_from_html h.anchors with
              | nil =>
                  rw [hh] at he
                  simp only [if_pos rfl] at he
                  rcases List.mem_append.mp he with hm | hm
                  · rcases List.mem_append.mp hm with hm' | hm'
                    · intro hmark
                      subst hmark
                      have := runRetries_all_attempt (env.vgmGoto vgm)
                          VGMLINK_LOAD_RETRIES 1 _ hm'
                      exact Event.noConfusion this
                    · intro hmark
                      subst hmark
                      simp at hm'
                  · exact ih set e hm
              | cons c cs =>
                  rw [hh] at he
                  rw [if_neg (List.cons_ne_nil c cs)] at he
                  rcases List.mem_append.mp he with hm | hm
                  · rcases List.mem_append.mp hm with hm' | hm'
                    · rcases List.mem_append.mp hm' with hm'' | hm''
                      · intro hmark
                        subst hmark
                        have := runRetries_all_attempt (env.vgmGoto vgm)
                            VGMLINK_LOAD_RETRIES 1 _ hm''
                        exact Event.noConfusion this
                      · intro hmark
                        subst hmark
                        simp at hm''
                    · exact processFinals_no_mark env rpt fb _ _ e hm'
                  · exact ih _ e hm

/-- Packaging of a mark-terminated trace. -/
lemma trace_shape {evs : List Event} (hall : ∀ e ∈ evs, e ≠ Event.mark)
    (hatt : Event.attempt ∈ evs) :
    ∃ pre, evs ++ [Event.mark] = pre ++ [Event.mark] ∧
      Event.mark ∉ pre ∧ Event.attempt ∈ pre :=
  ⟨evs, rfl, fun hm => hall _ hm rfl, hatt⟩

/-- C1: every `process_movie` run marks the candidate processed exactly
once — the trace ends with a single `mark` event — and the mark comes after
all resolution attempts, at least one of which was made. -/
theorem process_movie_marks_once (movieUrl : String) (env : Env) :
    ∃ pre, process_movie movieUrl env = pre ++ [Event.mark] ∧
      Event.mark ∉ pre ∧ Event.attempt ∈ pre := by
  have hload : Event.attempt ∈ (runRetries env.movieGoto 1 MOVIE_LOAD_RETRIES).1 :=
    runRetries_has_attempt env.movieGoto 1 2
  have hloadall := runRetries_all_attempt env.movieGoto MOVIE_LOAD_RETRIES 1
  simp only [process_movie]
  cases hl : (runRetries env.movieGoto 1 MOVIE_LOAD_RETRIES).2 with
  | none =>
      simp only
      cases hf : env.movieFetch with
      | none =>
          simp only
          refine trace_shape ?_ (List.mem_append.mpr (Or.inl hload))
          intro e he hmark
          subst hmark
          rcases List.mem_append.mp he with hm | hm
          · exact Event.noConfusion (hloadall _ hm)
          · simp at hm
      | some h =>
          simp only
          by_cases hc : dedupe (movieCandidates h.anchors) = []
          · rw [if_pos hc]
            refine trace_shape ?_ (List.mem_append.mpr (Or.inl hload))
            intro e he hmark
            subst hmark
            rcases List.mem_append.mp he with hm | hm
            · exact Event.noConfusion (hloadall _ hm)
            · simp at hm
          · rw [if_neg hc]
            refine trace_shape ?_
              (List.mem_append.mpr (Or.inl (List.mem_append.mpr (Or.inl hload))))
            intro e he hmark
            subst hmark
            rcases List.mem_append.mp he with hm | hm
            · rcases List.mem_append.mp hm with hm' | hm'
              · exact Event.noConfusion (hloadall _ hm')
              · simp at hm'
            · exact processVgms_no_mark env _ _ _ _ _ hm rfl
  | some h =>
      simp only
      by_cases hc : dedupe (movieCandidates h.anchors) = []
      · rw [if_pos hc]
        refine trace_shape ?_ hload
        intro e he hmark
        subst hmark
        exact Event.noConfusion (hloadall _ he)
      · rw [if_neg hc]
        refine trace_shape ?_ (List.mem_append.mpr (Or.inl hload))
        intro e he hmark
        subst hmark
        rcases List.mem_append.mp he with hm | hm
        · exact Event.noConfusion (hloadall _ hm)
        · exact processVgms_no_mark env _ _ _ _ _ hm rfl

/-- The projection `emits` distributes over concatenation. -/
lemma emits_append : ∀ l1 l2 : List Event, emits (l1 ++ l2) = emits l1 ++ emits l2 := by
  intro l1 l2
  induction l1 with
  | nil => rfl
  | cons e rest ih => cases e <;> simp [emits, ih]

/-- A trace of pure attempts carries no records. -/
lemma emits_attempts {evs : List Event} (h : ∀ e ∈ evs, e = Event.attempt) :
    emits evs = [] := by
  induction evs with
  | nil => rfl
  | cons e rest ih =>
      have he := h e (List.mem_cons_self e rest)
      subst he
      exact ih (fun e' he' => h e' (List.mem_cons_of_mem _ he'))

/-- Invariant of the final-link loop: the dedup set only grows, every
emitted record is the record of its own URL with a key that was fresh and
is afterwards in the set, and the emitted keys are pairwise distinct. -/
lemma processFinals_inv (env : Env) (rpt fb : String) :
    ∀ fs set,
      (∀ k ∈ set, k ∈ (processFinals env rpt fb fs set).2) ∧
      (∀ r ∈ emits (processFinals env rpt fb fs set).1,
        r = emitOf env rpt fb r.2.2 ∧ recKey r ∉ set ∧
          recKey r ∈ (processFinals env rpt fb fs set).2) ∧
      ((emits (processFinals env rpt fb fs set).1).map recKey).Nodup := by
  intro fs
  induction fs with
  | nil =>
      intro set
      refine ⟨fun k hk => hk, ?_, ?_⟩
      · intro r hr
        simp [processFinals, emits] at hr
      · simp [processFinals, emits]
  | cons f rest ih =>
      intro set
      by_cases hk :
          set.contains (keyFor env rpt fb (resolve_shortener_and_get_final env f)) = true
      · have heq : processFinals env rpt fb (f :: rest) set =
            (Event.attempt :: (processFinals env rpt fb rest set).1,
             (processFinals env rpt fb rest set).2) := by
          simp only [processFinals, if_pos hk]
        rw [heq]
        obtain ⟨h1, h2, h3⟩ := ih set
        exact ⟨h1, fun r hr => h2 r hr, h3⟩
      · have hkey : keyFor env rpt fb (resolve_shortener_and_get_final env f) ∉ set := by
          intro hm
          exact hk (by simpa using hm)
        have heq : processFinals env rpt fb (f :: rest) set =
            (Event.attempt ::
               Event.emit (recordFor env rpt fb (resolve_shortener_and_get_final env f)).1
                 (recordFor env rpt fb (resolve_shortener_and_get_final env f)).2
                 (resolve_shortener_and_get_final env f) ::
               (processFinals env rpt fb rest
                 (set ++ [keyFor env rpt fb (resolve_shortener_and_get_final env f)])).1,
             (processFinals env rpt fb rest
               (set ++ [keyFor env rpt fb (resolve_shortener_and_get_final env f)])).2) := by
          simp only [processFinals, if_neg hk]
        rw [heq]
        obtain ⟨h1, h2, h3⟩ :=
          ih (set ++ [keyFor env rpt fb (resolve_shortener_and_get_final env f)])
        have hkmem : keyFor env rpt fb (resolve_shortener_and_get_final env f) ∈
            (processFinals env rpt fb rest
              (set ++ [keyFor env rpt fb (resolve_shortener_and_get_final env f)])).2 :=
          h1 _ (List.mem_append.mpr (Or.inr (List.mem_singleton.mpr rfl)))
        refine ⟨?_, ?_, ?_⟩
        · intro k hkm
          exact h1 k (List.mem_append.mpr (Or.inl hkm))
        · intro r hr
          rcases List.mem_cons.mp hr with rfl | hr'
          · exact ⟨rfl, hkey, hkmem⟩
          · obtain ⟨hre, hrk, hro⟩ := h2 r hr'
            exact ⟨hre, fun hm => hrk (List.mem_append.mpr (Or.inl hm)), hro⟩
        · refine List.Pairwise.cons ?_ h3
          intro k hkm
          rcases List.mem_map.mp hkm with ⟨r, hr, rfl⟩
          obtain ⟨hre, hrk, hro⟩ := h2 r hr
          intro heqk
          exact hrk (List.mem_append.mpr (Or.inr (List.mem_singleton.mpr heqk.symm)))

/-- One step of the intermediary loop: either the hop contributes only
attempts (failed load or no final candidates), or it runs the final-link
loop on a nonempty ranked list and threads its dedup set. -/
lemma processVgms_cons (env : Env) (rpt fb vgm : String) (rest : List String)
    (set : List String) :
    ∃ evs, (∀ e ∈ evs, e = Event.attempt) ∧
      (processVgms env rpt fb (vgm :: rest) set =
          (evs ++ (processVgms env rpt fb rest set).1,
           (processVgms env rpt fb rest set).2) ∨
        ∃ finals : List String, finals ≠ [] ∧
          processVgms env rpt fb (vgm :: rest) set =
            (evs ++ (processFinals env rpt fb (prefer_links finals) set).1 ++
               (processVgms env rpt fb rest
                 (processFinals env rpt fb (prefer_links finals) set).2).1,
             (processVgms env rpt fb rest
               (processFinals env rpt fb (prefer_links finals) set).2).2)) := by
  have hall := runRetries_all_attempt (env.vgmGoto vgm) VGMLINK_LOAD_RETRIES 1
  cases hl : (runRetries (env.vgmGoto vgm) 1 VGMLINK_LOAD_RETRIES).2 with
  | some h =>
      refine ⟨(runRetries (env.vgmGoto vgm) 1 VGMLINK_LOAD_RETRIES).1, hall, ?_⟩
      cases hh : extract_final_candidates_from_html h.anchors with
      | nil =>
          left
          simp [processVgms, hl, hh]
      | cons c cs =>
          right
          refine ⟨c :: cs, List.cons_ne_nil c cs, ?_⟩
          simp only [processVgms, hl, hh, if_neg (List.cons_ne_nil c cs)]
  | none =>
      cases hf : env.vgmFetch vgm with
      | none =>
          refine ⟨(runRetries (env.vgmGoto vgm) 1 VGMLINK_LOAD_RETRIES).1 ++
            [Event.attempt], ?_, ?_⟩
          · intro e he
            rcases List.mem_append.mp he with hm | hm
            · exact hall e hm
            · simpa using hm
          · left
            simp only [processVgms, hl, hf]
      | some h =>
          refine ⟨(runRetries (env.vgmGoto vgm) 1 VGMLINK_LOAD_RETRIES).1 ++
            [Event.attempt], ?_, ?_⟩
          · intro e he
            rcases List.mem_append.mp he with hm | hm
            · exact hall e hm
            · simpa using hm
          · cases hh : extract_final_candidates_from_html h.anchors with
            | nil =>
                left
                simp [processVgms, hl, hf, hh]
            | cons c cs =>
                right
                refine ⟨c :: cs, List.cons_ne_nil c cs, ?_⟩
                simp only [processVgms, hl, hf, hh, if_neg (List.cons_ne_nil c cs)]

/-- Invariant of the intermediary loop, matching `processFinals_inv`. -/
lemma processVgms_inv (env : Env) (rpt fb : String) :
    ∀ vs set,
      (∀ k ∈ set, k ∈ (processVgms env rpt fb vs set).2) ∧
      (∀ r ∈ emits (processVgms env rpt fb vs set).1,
        r = emitOf env rpt fb r.2.2 ∧ recKey r ∉ set ∧
          recKey r ∈ (processVgms env rpt fb vs set).2) ∧
      ((emits (processVgms env rpt fb vs set).1).map recKey).Nodup := by
  intro vs
  induction vs with
  | nil =>
      intro set
      refine ⟨fun k hk => hk, ?_, ?_⟩
      · intro r hr
        simp [processVgms, emits] at hr
      · simp [processVgms, emits]
  | cons vgm rest ih =>
      intro set
      obtain ⟨evs, hevs, hcase⟩ := processVgms_cons env rpt fb vgm rest set
      rcases hcase with heq | ⟨finals, hne, heq⟩
      · rw [heq]
        obtain ⟨h1, h2, h3⟩ := ih set
        have hemits : emits (evs ++ (processVgms env rpt fb rest set).1) =
            emits (processVgms env rpt fb rest set).1 := by
          rw [emits_append, emits_attempts hevs, List.nil_append]
        rw [hemits]
        exact ⟨h1, h2, h3⟩
      · rw [heq]
        obtain ⟨p1, p2, p3⟩ := processFinals_inv env rpt fb (prefer_links finals) set
        obtain ⟨h1, h2, h3⟩ :=
          ih (processFinals env rpt fb (prefer_links finals) set).2
        have hemits : emits (evs ++
              (processFinals env rpt fb (prefer_links finals) set).1 ++
              (processVgms env rpt fb rest
                (processFinals env rpt fb (prefer_links finals) set).2).1) =
            emits (processFinals env rpt fb (prefer_links finals) set).1 ++
              emits (processVgms env rpt fb rest
                (processFinals env rpt fb (prefer_links finals) set).2).1 := by
          rw [emits_append, emits_append, emits_attempts hevs, List.nil_append]
        rw [hemits]
        refine ⟨?_, ?_, ?_⟩
        · intro k hkm
          exact h1 k (p1 k hkm)
        · intro r hr
          rcases List.mem_append.mp hr with hm | hm
          · obtain ⟨hre, hrk, hro⟩ := p2 r hm
            exact ⟨hre, hrk, h1 _ hro⟩
          · obtain ⟨hre, hrk, hro⟩ := h2 r hm
            exact ⟨hre, fun hmem => hrk (p1 _ hmem), hro⟩
        · rw [List.map_append]
          refine List.Nodup.append p3 h3 ?_
          intro k hk1 hk2
          rcases List.mem_map.mp hk1 with ⟨r, hr, rfl⟩
          rcases List.mem_map.mp hk2 with ⟨r', hr', hkk⟩
          have hin := (p2 r hr).2.2
          have hout := (h2 r' hr').2.1
          rw [hkk] at hout
          exact hout hin

/-- The emitted records of a whole run have pairwise distinct (URL, quality)
projections. -/
lemma emits_pairs_nodup (env : Env) (rpt fb : String) (cands : List String) :
    ((emits (processVgms env rpt fb cands []).1).map
      (fun r => (r.2.2, r.2.1))).Nodup := by
  obtain ⟨h1, h2, h3⟩ := processVgms_inv env rpt fb cands []
  have hmapkey : (emits (processVgms env rpt fb cands []).1).map recKey =
      ((emits (processVgms env rpt fb cands []).1).map (fun r => r.2.2)).map
        (fun u => recKey (emitOf env rpt fb u)) := by
    rw [List.map_map]
    apply List.map_congr_left
    intro r hr
    have hre := (h2 r hr).1
    conv_lhs => rw [hre]
    rfl
  have hurl : ((emits (processVgms env rpt fb cands []).1).map
      (fun r => r.2.2)).Nodup := by
    refine List.Nodup.of_map (fun u => recKey (emitOf env rpt fb u)) ?_
    rw [← hmapkey]
    exact h3
  refine List.Nodup.of_map Prod.fst ?_
  rw [List.map_map]
  have hsame : (emits (processVgms env rpt fb cands []).1).map
      (Prod.fst ∘ fun r => (r.2.2, r.2.1)) =
      (emits (processVgms env rpt fb cands []).1).map (fun r => r.2.2) := by
    apply List.map_congr_left
    intro r hr
    rfl
  rw [hsame]
  exact hurl

/-- C2: at most one record is emitted per (final URL, quality) pair in any
run, and the concrete candidate whose two intermediary hops both yield the
same 1080p final link produces exactly one 1080p record. -/
theorem process_movie_dedup :
    (∀ (movieUrl : String) (env : Env),
        ((emits (process_movie movieUrl env)).map (fun r => (r.2.2, r.2.1))).Nodup) ∧
      emits (process_movie "https://example.site/movies/awesome-movie/" scenarioEnv) =
        [("Awesome Movie 2024 1080P", "1080p", "https://gdtot.example/file1080")] := by
  refine ⟨?_, by rfl⟩
  intro movieUrl env
  have hloadall := runRetries_all_attempt env.movieGoto MOVIE_LOAD_RETRIES 1
  simp only [process_movie]
  cases hl : (runRetries env.movieGoto 1 MOVIE_LOAD_RETRIES).2 with
  | none =>
      simp only
      have hatt : ∀ e ∈ (runRetries env.movieGoto 1 MOVIE_LOAD_RETRIES).1 ++
          [Event.attempt], e = Event.attempt := by
        intro e he
        rcases List.mem_append.mp he with hm | hm
        · exact hloadall e hm
        · simpa using hm
      cases hf : env.movieFetch with
      | none =>
          simp only
          rw [emits_append, emits_attempts hatt]
          simp [emits]
      | some h =>
          simp only
          by_cases hc : dedupe (movieCandidates h.anchors) = []
          · rw [if_pos hc]
            rw [emits_append, emits_attempts hatt]
            simp [emits]
          · rw [if_neg hc]
            rw [emits_append, emits_append, emits_attempts hatt]
            rw [show emits [Event.mark] = [] from rfl]
            simp only [List.nil_append, List.append_nil]
            exact emits_pairs_nodup env _ _ _
  | some h =>
      simp only
      by_cases hc : dedupe (movieCandidates h.anchors) = []
      · rw [if_pos hc]
        rw [emits_append, emits_attempts hloadall]
        simp [emits]
      · rw [if_neg hc]
        rw [emits_append, emits_append, emits_attempts hloadall]
        rw [show emits [Event.mark] = [] from rfl]
        simp only [List.nil_append, List.append_nil]
        exact emits_pairs_nodup env _ _ _

end Scraper


